import Mathlib

/-!
Verification of the Plasma runtime core (loader/linker and mark-sweep heap)
against its specification.  Definitions are shallow embeddings of the C++
sources under `src/runtime/`; where a function used by the claims exists
only outside the provided sources (the binary-input primitives, the
instruction encoder, `data_write_*`, `width_from_int`), it is modelled from
the specification and marked as such in its doc comment.
-/

namespace Plasma

/-! ## GC capabilities (`src/runtime/pz_gc_util.cpp`)

A capability is modelled as its mode plus the list of modes of its parents
(innermost first, the `Root` sentinel last when present).
-/

/-- The three capability modes of `GCCapability` (`pz_gc_util.cpp`). -/
inductive CapMode where
  | isRoot
  | cannotGC
  | canGC
deriving DecidableEq, Repr

open CapMode

/-- The loop of `GCCapability::can_gc` (`pz_gc_util.cpp:42-62`) after the
first iteration: `cur` is no longer `this`, so reaching `IS_ROOT` returns
`true`; `CANNOT_GC` returns `false`; `CAN_GC` continues to the parent;
running out of parents returns `true`. -/
def canGCAux : List CapMode → Bool
  | [] => true
  | isRoot :: _ => true
  | cannotGC :: _ => false
  | canGC :: rest => canGCAux rest

/-- `GCCapability::can_gc` (`pz_gc_util.cpp:42-62`).  The first loop
iteration has `cur == this`: an `IS_ROOT` self returns `this != cur`,
i.e. `false`; `CANNOT_GC` returns `false`; `CAN_GC` walks to the parents. -/
def can_gc (self : CapMode) (parents : List CapMode) : Bool :=
  match self with
  | isRoot => false
  | cannotGC => false
  | canGC => canGCAux parents

/-- A well-formed capability chain: the `Root` sentinel has no parent
(`assert(!cur->m_parent)` in the source), so `isRoot` may appear only as
the last element of the parent list. -/
def WFChain (parents : List CapMode) : Prop :=
  ∀ i : Fin parents.length, parents.get i = isRoot → i.val = parents.length - 1

instance (parents : List CapMode) : Decidable (WFChain parents) := by
  unfold WFChain; infer_instance

/-! ## Binary input primitives

Modelled from the spec: `BinaryInput` (`pz_io.cpp`, not among the provided
sources) provides little-endian unsigned 8/16/32/64-bit readers and
length-prefixed strings; a short read fails.  A file is a list of byte
values (each `< 256` for well-formed files). -/

/-- Modelled from the spec: `BinaryInput::read_uint8`.  Returns the byte and
the remaining file, or `none` at end of file. -/
def readU8 : List Nat → Option (Nat × List Nat)
  | [] => none
  | b :: rest => some (b, rest)

/-- Modelled from the spec: `BinaryInput::read_uint16` (little-endian). -/
def readU16 : List Nat → Option (Nat × List Nat)
  | b0 :: b1 :: rest => some (b0 + 256 * b1, rest)
  | _ => none

/-- Modelled from the spec: `BinaryInput::read_uint32` (little-endian). -/
def readU32 : List Nat → Option (Nat × List Nat)
  | b0 :: b1 :: b2 :: b3 :: rest =>
    some (b0 + 256 * b1 + 65536 * b2 + 16777216 * b3, rest)
  | _ => none

/-- Modelled from the spec: `BinaryInput::read_uint64` (little-endian). -/
def readU64 : List Nat → Option (Nat × List Nat)
  | b0 :: b1 :: b2 :: b3 :: b4 :: b5 :: b6 :: b7 :: rest =>
    some (b0 + 256 * b1 + 65536 * b2 + 16777216 * b3 +
      4294967296 * (b4 + 256 * b5 + 65536 * b6 + 16777216 * b7), rest)
  | _ => none

/-! ## Data slots (`pz_read.cpp:478-590`, `read_data_slot`)

The model runs on a 64-bit platform: pointers and machine words are 8
bytes, `uintptr_t` arithmetic is modulo `2^64`.
-/

/-- `PZ_DATA_ENC_TYPE` (`pz_format.h:216`): the high nibble of the encoding
byte. -/
def dataEncType (b : Nat) : Nat := b &&& 0xF0

/-- `PZ_DATA_ENC_BYTES` (`pz_format.h:218`): the low nibble of the encoding
byte. -/
def dataEncBytes (b : Nat) : Nat := b &&& 0x0F

/-- The value written by `data_write_wptr(dest, (uintptr_t)i32)` at
`pz_read.cpp:538-539`: the 32-bit value read from the file is reinterpreted
as `int32_t` and cast to the 64-bit `uintptr_t`, which sign-extends. -/
def wptrStored (v : Nat) : Nat :=
  if v < 2 ^ 31 then v else v + (2 ^ 64 - 2 ^ 32)

/-- What `read_data_slot` stores into the destination slot.  The
`data_write_*` helpers (`pz_data.h`, not among the provided sources) are
modelled from the spec as storing the decoded value at the matching
width; reference cases store a pointer. -/
inductive SlotVal where
  | u8 (v : Nat)
  | u16 (v : Nat)
  | u32 (v : Nat)
  | u64 (v : Nat)
  | fastV (v : Nat)
  | wptrV (v : Nat)
  | refPtr (p : Nat)
deriving DecidableEq, Repr

/-- Outcome of a loader step: success, failure returned to the caller
(`return false`), or process termination via `abort()`. -/
inductive SlotOut where
  | ok (v : SlotVal) (rest : List Nat)
  | err
  | aborted
deriving DecidableEq, Repr

/-- The library state visible to `read_data_slot` and `read_instr`:
lookups into the `LibraryLoading` aggregate.  `data id` is the entry's
address when the entry has already been read, else `none` (`nullptr`);
`closureAddr`/`procCodeAddr`/`structTotalSize`/`structFieldOffset` model
`library.closure(id)`, `library.proc(id)->code()`,
`library.struct_(id)->total_size()` and `->field_offset(f)`. -/
structure RLibrary where
  data : Nat → Option Nat
  closureAddr : Nat → Nat
  procCodeAddr : Nat → Nat
  structTotalSize : Nat → Nat
  structFieldOffset : Nat → Nat → Nat

/-- The `Imported` aggregate (`pz_read.cpp:26-36`): parallel vectors of
export ids and import-closure addresses. -/
structure Imported where
  imports : List Nat
  import_closures : List Nat
deriving Repr

/-- `read_data_slot` (`pz_read.cpp:478-590`).  Reads the encoding byte,
then dispatches on the high nibble: `normal` reads 1/2/4/8 bytes at that
width (any other byte count prints an error and returns false); `fast`
reads 32 bits (stored via `data_write_fast_from_int32`, modelled from the
spec as zero-extension into the fast slot); `wptr` reads 32 bits into an
`int32_t` and stores `(uintptr_t)i32` (sign-extension, `wptrStored`);
`data` reads a 32-bit id and stores `library.data(ref)`, aborting when the
referent is not yet present; `import` stores
`imports.import_closures[ref]`; `closure` stores `library.closure(ref)`;
an unrecognised high nibble aborts. -/
def read_data_slot (library : RLibrary) (imports : Imported)
    (file : List Nat) : SlotOut :=
  match readU8 file with
  | none => .err
  | some (rawEnc, f1) =>
    if dataEncType rawEnc = 0x00 then
      match dataEncBytes rawEnc with
      | 1 => match readU8 f1 with
             | some (v, r) => .ok (.u8 v) r
             | none => .err
      | 2 => match readU16 f1 with
             | some (v, r) => .ok (.u16 v) r
             | none => .err
      | 4 => match readU32 f1 with
             | some (v, r) => .ok (.u32 v) r
             | none => .err
      | 8 => match readU64 f1 with
             | some (v, r) => .ok (.u64 v) r
             | none => .err
      | _ => .err
    else if dataEncType rawEnc = 0x10 then
      match readU32 f1 with
      | some (v, r) => .ok (.fastV v) r
      | none => .err
    else if dataEncType rawEnc = 0x20 then
      match readU32 f1 with
      | some (v, r) => .ok (.wptrV (wptrStored v)) r
      | none => .err
    else if dataEncType rawEnc = 0x30 then
      match readU32 f1 with
      | some (ref, r) =>
        match library.data ref with
        | some d => .ok (.refPtr d) r
        | none => .aborted
      | none => .err
    else if dataEncType rawEnc = 0x40 then
      match readU32 f1 with
      | some (ref, r) => .ok (.refPtr (imports.import_closures.getD ref 0)) r
      | none => .err
    else if dataEncType rawEnc = 0x50 then
      match readU32 f1 with
      | some (ref, r) => .ok (.refPtr (library.closureAddr ref)) r
      | none => .err
    else
      .aborted

/-! ## Imports (`pz_read.cpp:329-362`, `read_imports`) -/

/-- An `Export` as returned by `Library::lookup_symbol`: the export's id
and its closure's address. -/
structure RExport where
  id : Nat
  closure : Nat
deriving DecidableEq, Repr

/-- A loaded library as seen by import resolution: its export map keyed by
fully-qualified name. -/
structure LinkedLibrary where
  exports : String → Option RExport

/-- The two linkage errors of `read_imports`. -/
inductive ImportError where
  | moduleNotFound (m : String)
  | procedureNotFound (m s : String)
deriving DecidableEq, Repr

/-- `read_imports` (`pz_read.cpp:329-362`).  The import entries (pairs of
module name and symbol name) are the strings decoded from the file.  For
each entry the module is looked up in the registry (`pz.lookup_library`);
a missing module fails with "Module not found"; then the qualified name
`module_name + "." + name` is looked up in that library's exports; a
missing export fails with "Procedure not found"; otherwise the export's id
and closure are appended to the two parallel vectors. -/
def read_imports (reg : String → Option LinkedLibrary) :
    List (String × String) → Imported → Except ImportError Imported
  | [], acc => .ok acc
  | (m, s) :: rest, acc =>
    match reg m with
    | none => .error (.moduleNotFound m)
    | some lib =>
      match lib.exports (m ++ "." ++ s) with
      | some e =>
        read_imports reg rest
          ⟨acc.imports ++ [e.id], acc.import_closures ++ [e.closure]⟩
      | none => .error (.procedureNotFound m s)

/-! ## The heap (`src/runtime/pz_gc.cpp`)

The model runs on a 64-bit platform (`__WORDSIZE == 64`, `TAG_BITS =
0x7`, `MACHINE_WORD_SIZE = 8`).  Addresses are byte offsets from
`base_address`; cells are indexed by machine word.  The word before each
cell holds its size (`cell_size`), modelled by the map `sizes` (indexed by
the cell's word); `bits` models the side bitmap (`cell_bits`, one byte per
word); `mem` gives the word contents scanned conservatively by `mark`;
the intrusive singly-linked free list threaded through free cells'
payloads is abstracted as the list of cell word-indices in link order.
`wilderness` is in words: `wilderness_ptr = base_address +
8 * wilderness`. -/

def MACHINE_WORD_SIZE : Nat := 8

def GC_BITS_ALLOCATED : Nat := 0x01

def GC_BITS_MARKED : Nat := 0x02

def GC_BITS_VALID : Nat := 0x04

/-- Pointwise update of a `Nat`-indexed map. -/
def updFn (f : Nat → Nat) (x v : Nat) : Nat → Nat :=
  fun q => if q = x then v else f q

/-- The heap state of `class Heap` (`pz_gc.cpp`). -/
structure Heap where
  heapSize : Nat
  wilderness : Nat
  bits : Nat → Nat
  sizes : Nat → Nat
  mem : Nat → Nat
  freeList : List Nat

def setBits (h : Heap) (w v : Nat) : Heap := { h with bits := updFn h.bits w v }

def setSize (h : Heap) (w v : Nat) : Heap := { h with sizes := updFn h.sizes w v }

/-- `REMOVE_TAG` (`pz_gc.cpp:68`): mask off the low 3 tag bits of a
candidate pointer (byte offset from base). -/
def REMOVE_TAG (v : Nat) : Nat := v - v % MACHINE_WORD_SIZE

/-- `Heap::is_heap_address` (`pz_gc.cpp:472-476`): `base_address ≤ ptr <
wilderness_ptr`, on byte offsets from base. -/
def is_heap_address (h : Heap) (ptr : Nat) : Bool :=
  decide (ptr < MACHINE_WORD_SIZE * h.wilderness)

/-- The bitmap index of `Heap::cell_bits` (`pz_gc.cpp:478-486`):
`(ptr - base_address) / MACHINE_WORD_SIZE`. -/
def cell_bits_index (ptr : Nat) : Nat := ptr / MACHINE_WORD_SIZE

/-- `Heap::is_valid_object` (`pz_gc.cpp:458-470`): a heap address whose
bitmap byte has both `GC_BITS_ALLOCATED` and `GC_BITS_VALID` set. -/
def is_valid_object (h : Heap) (ptr : Nat) : Bool :=
  is_heap_address h ptr &&
    decide (h.bits (cell_bits_index ptr) &&&
        (GC_BITS_ALLOCATED ||| GC_BITS_VALID) =
      GC_BITS_ALLOCATED ||| GC_BITS_VALID)

/-- `Heap::mark` (`pz_gc.cpp:330-349`): set the cell's mark bit, then scan
each of its payload words conservatively, recursing into unmarked valid
objects.  `fuel` bounds the recursion depth (the C code recurses on the
call stack; any fuel at least the number of heap cells is enough, and the
callers pass `wilderness + 1`). -/
def mark : Nat → Heap → Nat → Heap
  | 0, h, _ => h
  | fuel + 1, h, w =>
    let size := h.sizes w
    let h₁ := setBits h w (h.bits w ||| GC_BITS_MARKED)
    (List.range size).foldl
      (fun acc i =>
        let cur := REMOVE_TAG (acc.mem (w + i))
        if is_valid_object acc cur = true ∧
            acc.bits (cell_bits_index cur) &&& GC_BITS_MARKED = 0 then
          mark fuel acc (cell_bits_index cur)
        else acc)
      h₁
  termination_by structural fuel => fuel

/-- The root-scanning loop of `Heap::collect` (`pz_gc.cpp:296-308`):
`roots` is the sequence of word values found on the stack between `stack`
and `top_of_stack`; each is detagged and, when it denotes an unmarked
valid object, marked. -/
def markRoots (h : Heap) (roots : List Nat) : Heap :=
  roots.foldl
    (fun acc v =>
      let cur := REMOVE_TAG v
      if is_valid_object acc cur = true ∧
          acc.bits (cell_bits_index cur) &&& GC_BITS_MARKED = 0 then
        mark (acc.wilderness + 1) acc (cell_bits_index cur)
      else acc)
    h

/-- The sweep walk of `Heap::sweep` (`pz_gc.cpp:351-427`).  `p` is the
current cell (word index, starting at `base_address + 1`), `fir` is
`p_first_in_run`.  An unmarked cell either starts a free run (linked into
the free list, `allocated` bit cleared) or is merged into the current run
(bitmap byte zeroed).  A marked cell has its mark bit cleared, and closes
any open run by fixing the run head's size to `p - 1 - f`.  The walk
advances by `old_size + 1` words.  One fuel unit is spent per iteration;
the walk makes fewer than `wilderness` iterations. -/
def sweepLoop : Nat → Heap → Nat → Option Nat → Heap × Option Nat
  | 0, h, _, fir => (h, fir)
  | fuel + 1, h, p, fir =>
    if p < h.wilderness then
      let oldSize := h.sizes p
      if h.bits p &&& GC_BITS_MARKED = 0 then
        match fir with
        | none =>
          let h₁ := { h with freeList := p :: h.freeList }
          let h₂ := setBits h₁ p (h₁.bits p &&& 0xFE)
          sweepLoop fuel h₂ (p + oldSize + 1) (some p)
        | some f =>
          let h₁ := setBits h p 0
          sweepLoop fuel h₁ (p + oldSize + 1) (some f)
      else
        let h₁ := setBits h p (h.bits p &&& 0xFD)
        let h₂ :=
          match fir with
          | some f => setSize h₁ f (p - 1 - f)
          | none => h₁
        sweepLoop fuel h₂ (p + oldSize + 1) none
    else (h, fir)
  termination_by structural fuel => fuel

/-- `Heap::sweep` (`pz_gc.cpp:351-435`): reset the free list, walk the
cells from `base_address + 1`, and after the loop fix up the size of a
still-open run head to reach the wilderness. -/
def sweep (h : Heap) : Heap :=
  match sweepLoop h.wilderness { h with freeList := [] } 1 none with
  | (h₁, some f) => setSize h₁ f (h₁.wilderness - f)
  | (h₁, none) => h₁

/-- `Heap::collect` (`pz_gc.cpp:284-328`): mark from the stack roots, then
sweep. -/
def collect (h : Heap) (roots : List Nat) : Heap :=
  sweep (markRoots h roots)

/-- The best-fit scan over the free list in `Heap::try_allocate`
(`pz_gc.cpp:189-209`): the first cell of sufficient size is taken, and
later strictly smaller sufficient cells replace it. -/
def findBest (sizes : Nat → Nat) (req : Nat) (fl : List Nat) : Option Nat :=
  fl.foldl
    (fun best c =>
      if req ≤ sizes c then
        match best with
        | none => some c
        | some b => if sizes c < sizes b then some c else some b
      else best)
    none

/-- `Heap::try_allocate` (`pz_gc.cpp:181-280`).  First the free list: the
best-fitting cell is unlinked, its bitmap byte set to
`VALID | ALLOCATED`, and split when at least `size + 2` words (the
remainder becomes a new `VALID` free cell at `best + size + 1`, prepended
to the free list).  Otherwise bump-allocate from the wilderness: the new
cell starts one word past `wilderness_ptr`, and allocation fails (returns
`none`, with the heap unchanged) when the new wilderness would exceed
`base_address + heap_size`. -/
def try_allocate (h : Heap) (size_in_words : Nat) : Option (Heap × Nat) :=
  match findBest h.sizes size_in_words h.freeList with
  | some best =>
    let h₁ := { h with freeList := h.freeList.erase best }
    let h₂ := setBits h₁ best (GC_BITS_VALID ||| GC_BITS_ALLOCATED)
    let h₃ :=
      if size_in_words + 2 ≤ h₂.sizes best then
        let oldSize := h₂.sizes best
        let next := best + size_in_words + 1
        let h₄ := setSize h₂ best size_in_words
        let h₅ := setSize h₄ next (oldSize - (size_in_words + 1))
        let h₆ := setBits h₅ next GC_BITS_VALID
        { h₆ with freeList := next :: h₆.freeList }
      else h₂
    some (h₃, best)
  | none =>
    let cell := h.wilderness + 1
    if h.heapSize < (h.wilderness + size_in_words + 1) * MACHINE_WORD_SIZE then
      none
    else
      let h₁ := { h with wilderness := h.wilderness + size_in_words + 1 }
      let h₂ := setSize h₁ cell size_in_words
      let h₃ := setBits h₂ cell (GC_BITS_ALLOCATED ||| GC_BITS_VALID)
      some (h₃, cell)

/-- Outcome of `Heap::alloc`, instrumented with the number of collections
performed during the call. -/
inductive AllocResult where
  | success (h : Heap) (cell : Nat) (collects : Nat)
  | oomAbort (bytesReported : Nat) (collects : Nat)

/-- The number of collections an `Heap::alloc` call performed. -/
def collectsOf : AllocResult → Nat
  | .success _ _ n => n
  | .oomAbort _ n => n

/-- `Heap::alloc` (`pz_gc.cpp:144-170`).  In `gc_zealous` mode a non-empty
heap (`wilderness_ptr > base_address`) forces the first attempt to fail.
On failure, collect once with the given roots and retry; if the retry
fails too, abort with the message "Out of memory, tried to allocate
`size_in_words * MACHINE_WORD_SIZE` bytes". -/
def alloc (h : Heap) (size_in_words : Nat) (roots : List Nat)
    (gc_zealous : Bool) : AllocResult :=
  let first :=
    if gc_zealous && decide (0 < h.wilderness) then none
    else try_allocate h size_in_words
  match first with
  | some (h', c) => .success h' c 0
  | none =>
    match try_allocate (collect h roots) size_in_words with
    | some (h₂, c) => .success h₂ c 1
    | none => .oomAbort (size_in_words * MACHINE_WORD_SIZE) 1

/-- The sequence of cell word-indices visited by walking cells of `sizes`
from `p` while below `wild`, advancing by `sizes p + 1`; with `fuel ≥
wild` this is every cell of the heap when started at `p = 1`. -/
def cellWalk (sizes : Nat → Nat) (wild : Nat) : Nat → Nat → List Nat
  | _, 0 => []
  | p, fuel + 1 =>
    if p < wild then p :: cellWalk sizes wild (p + sizes p + 1) fuel else []
  termination_by structural _ fuel => fuel

/-! ## Procedures, two passes (`pz_read.cpp:592-870`)

`read_code` reads the procedure section twice: pass 1 (`proc == nullptr`)
only computes each proc's code size and block offsets; pass 2 writes the
instructions into the allocated buffers and resolves references.  The
instruction encoder (`write_instr`, `pz_code.cpp`/`pz_run.cpp`, not among
the provided sources) is modelled from the spec: each instruction is
`opcode (1 byte) | width bytes | immediate`, where reference immediates
are pointer-sized (8 bytes) except `ImportRef` and `StructRefField`
(16-bit).  A code buffer is modelled as the list of writes the encoder
performed, each annotated with its byte position. -/

/-- Outcome of a loader routine: success, failure returned to the caller,
or process termination (`abort()` or an uncaught exception). -/
inductive RRes (α : Type) where
  | ok (a : α)
  | fail
  | aborted
deriving DecidableEq, Repr

/-- The `ImmediateType` enum as used by `read_instr`
(`pz_read.cpp:759-837`); the enum itself is declared with the interpreter
(not among the provided sources), its cases are modelled from the spec's
`ImmT`. -/
inductive ImmediateType where
  | IMT_NONE
  | IMT_8
  | IMT_16
  | IMT_32
  | IMT_64
  | IMT_CLOSURE_REF
  | IMT_PROC_REF
  | IMT_IMPORT_REF
  | IMT_IMPORT_CLOSURE_REF
  | IMT_LABEL_REF
  | IMT_STRUCT_REF
  | IMT_STRUCT_REF_FIELD
deriving DecidableEq, Repr

/-- One row of the `instruction_info` table: the number of width bytes
and the immediate type of an opcode.  The table is supplied by the
interpreter module and treated as opaque; all theorems hold for every
table. -/
structure InstrInfo where
  ii_num_width_bytes : Nat
  ii_immediate_type : ImmediateType
deriving DecidableEq, Repr

/-- Modelled from the spec: `width_from_int` (`pz_data.cpp`, not among
the provided sources): byte values 0..5 denote the six widths, anything
else is invalid. -/
def width_from_int (b : Nat) : Option Nat :=
  if b < 6 then some b else none

/-- `read_data_width` (`pz_read.cpp:471-476`): read one byte and decode
it as a width; the result is `none` at end of file or for an invalid
width byte.  Note the callers in `read_instr` do not check the result
immediately. -/
def read_data_width (file : List Nat) : Option Nat × List Nat :=
  match file with
  | [] => (none, [])
  | b :: rest => (width_from_int b, rest)

/-- The width-byte reads of `read_instr` (`pz_read.cpp:748-753`): one
width when `ii_num_width_bytes > 0`, a second when `> 1`; read failures
are not checked here. -/
def read_widths (nw : Nat) (file : List Nat) :
    Option Nat × Option Nat × List Nat :=
  if nw = 0 then (none, none, file)
  else
    match read_data_width file with
    | (w1, f1) =>
      if 1 < nw then
        match read_data_width f1 with
        | (w2, f2) => (w1, w2, f2)
      else (w1, none, f1)

/-- One write performed by the instruction encoder into a proc's code
buffer: the opcode byte, a width byte, or an immediate (annotated with
its type, the raw id parsed from the file, and the stored value). -/
inductive WriteRec where
  | opByte (pos op : Nat)
  | widthByte (pos w : Nat)
  | immWrite (pos : Nat) (ity : ImmediateType) (rawId val : Nat)
deriving DecidableEq, Repr

/-- Modelled from the spec: the encoded size of an immediate.  Reference
immediates are pointer-sized (8 bytes on this platform) except
`ImportRef` and `StructRefField`, which are 16-bit offsets. -/
def immSize : ImmediateType → Nat
  | .IMT_NONE => 0
  | .IMT_8 => 1
  | .IMT_16 => 2
  | .IMT_32 => 4
  | .IMT_64 => 8
  | .IMT_IMPORT_REF => 2
  | .IMT_STRUCT_REF_FIELD => 2
  | _ => 8

/-- Byte position of a write. -/
def recStart : WriteRec → Nat
  | .opByte p _ => p
  | .widthByte p _ => p
  | .immWrite p _ _ _ => p

/-- Byte length of a write. -/
def recLen : WriteRec → Nat
  | .opByte _ _ => 1
  | .widthByte _ _ => 1
  | .immWrite _ ity _ _ => immSize ity

/-- The width bytes written starting at `pos`, one byte each. -/
def widthRecords (pos : Nat) : List Nat → List WriteRec
  | [] => []
  | w :: ws => WriteRec.widthByte pos w :: widthRecords (pos + 1) ws

/-- Modelled from the spec: the writes one `write_instr` call performs:
the opcode byte at `offset`, the width bytes after it, and the immediate
(when there is one) right after those. -/
def writeRecords (offset op : Nat) (widths : List Nat)
    (ity : ImmediateType) (rid val : Nat) : List WriteRec :=
  WriteRec.opByte offset op :: widthRecords (offset + 1) widths ++
    (if ity = .IMT_NONE then []
     else [WriteRec.immWrite (offset + 1 + widths.length) ity rid val])

/-- Modelled from the spec: `write_instr`.  With a null buffer (pass 1)
nothing is written but the new offset is computed identically. -/
def write_instr (code : Option (List WriteRec)) (offset op : Nat)
    (widths : List Nat) (ity : ImmediateType) (rid val : Nat) :
    Option (List WriteRec) × Nat :=
  (code.map (fun ws => ws ++ writeRecords offset op widths ity rid val),
    offset + 1 + widths.length + immSize ity)

/-- The immediate reads of `read_instr` (`pz_read.cpp:758-837`), giving
the raw id parsed from the file and the value to store.  In the first
pass (`secondPass = false`) reference values that need allocated buffers
(`ClosureRef`, `ProcRef`, `LabelRef`) are 0.  `ImportRef` and
`ImportClosureRef` use `std::vector::at`, whose uncaught exception on an
out-of-range id terminates the process; `ImportRef` and
`StructRefField` store into the 16-bit immediate field (mod 2^16). -/
def read_imm (imported : Imported) (library : RLibrary) (codeBase : Nat)
    (block_offsets : List Nat) (secondPass : Bool) :
    ImmediateType → List Nat → RRes (Nat × Nat × List Nat)
  | .IMT_NONE, f => .ok (0, 0, f)
  | .IMT_8, f =>
    match readU8 f with
    | some (v, r) => .ok (v, v, r)
    | none => .fail
  | .IMT_16, f =>
    match readU16 f with
    | some (v, r) => .ok (v, v, r)
    | none => .fail
  | .IMT_32, f =>
    match readU32 f with
    | some (v, r) => .ok (v, v, r)
    | none => .fail
  | .IMT_64, f =>
    match readU64 f with
    | some (v, r) => .ok (v, v, r)
    | none => .fail
  | .IMT_CLOSURE_REF, f =>
    match readU32 f with
    | some (id, r) =>
      .ok (id, if secondPass then library.closureAddr id else 0, r)
    | none => .fail
  | .IMT_PROC_REF, f =>
    match readU32 f with
    | some (id, r) =>
      .ok (id, if secondPass then library.procCodeAddr id else 0, r)
    | none => .fail
  | .IMT_IMPORT_REF, f =>
    match readU32 f with
    | some (id, r) =>
      if id < imported.imports.length then
        .ok (id, imported.imports.getD id 0 * MACHINE_WORD_SIZE % 65536, r)
      else .aborted
    | none => .fail
  | .IMT_IMPORT_CLOSURE_REF, f =>
    match readU32 f with
    | some (id, r) =>
      if id < imported.import_closures.length then
        .ok (id, imported.import_closures.getD id 0, r)
      else .aborted
    | none => .fail
  | .IMT_LABEL_REF, f =>
    match readU32 f with
    | some (b, r) =>
      .ok (b, if secondPass then codeBase + block_offsets.getD b 0 else 0, r)
    | none => .fail
  | .IMT_STRUCT_REF, f =>
    match readU32 f with
    | some (id, r) => .ok (id, library.structTotalSize id, r)
    | none => .fail
  | .IMT_STRUCT_REF_FIELD, f =>
    match readU32 f with
    | some (id, r) =>
      match readU8 r with
      | some (fd, r2) =>
        .ok (id, library.structFieldOffset id fd % 65536, r2)
      | none => .fail
    | none => .fail

/-- `read_instr` (`pz_read.cpp:732-870`).  Read the opcode byte, the
width bytes per `instruction_info`, and the immediate; then write via the
encoder.  When both width reads succeeded the two-width `write_instr`
overload is used (which takes no immediate); when the first width read
failed the no-width overloads are used (ignoring any second width);
`LabelRef` immediates resolve in pass 2 to
`&proc_code[block_offsets[imm32]]`, i.e. the code base address plus the
block's recorded offset. -/
def read_instr (iinfo : Nat → InstrInfo) (imported : Imported)
    (library : RLibrary) (proc_code : Option (List WriteRec))
    (block_offsets : List Nat) (codeBase : Nat) (proc_offset : Nat)
    (file : List Nat) : RRes (Option (List WriteRec) × Nat × List Nat) :=
  match readU8 file with
  | none => .fail
  | some (op, f1) =>
    match read_widths (iinfo op).ii_num_width_bytes f1 with
    | (w1, w2, f2) =>
      match read_imm imported library codeBase block_offsets
          proc_code.isSome (iinfo op).ii_immediate_type f2 with
      | .fail => .fail
      | .aborted => .aborted
      | .ok (rid, val, f3) =>
        let widths : List Nat :=
          match w1, w2 with
          | some a, some b => [a, b]
          | some a, none => [a]
          | none, _ => []
        let ity :=
          match w1, w2 with
          | some _, some _ => ImmediateType.IMT_NONE
          | _, _ => (iinfo op).ii_immediate_type
        match write_instr proc_code proc_offset op widths ity rid val with
        | (code', off') => .ok (code', off', f3)

/-- `read_meta` (`pz_read.cpp:872-914`), modelled with debug-info loading
disabled (`load_debuginfo = false`, the default unless interpreter
tracing is on): `META_CONTEXT` (1) skips 8 payload bytes,
`META_CONTEXT_SHORT` (2) skips 4, `META_CONTEXT_NIL` (3) has no payload;
any other byte prints "Unknown byte in instruction stream" and
aborts. -/
def read_meta (meta_byte : Nat) (file : List Nat) : RRes (List Nat) :=
  if meta_byte = 1 then .ok (file.drop 8)
  else if meta_byte = 2 then .ok (file.drop 4)
  else if meta_byte = 3 then .ok file
  else .aborted

/-- The instruction loop of one block (`pz_read.cpp:707-726`): each item
is a `PZ_CODE_INSTR` (0) byte followed by an instruction, or a meta
byte. -/
def read_instrs (iinfo : Nat → InstrInfo) (imported : Imported)
    (library : RLibrary) (block_offsets : List Nat) (codeBase : Nat) :
    Nat → Option (List WriteRec) → Nat → List Nat →
      RRes (Option (List WriteRec) × Nat × List Nat)
  | 0, code, off, file => .ok (code, off, file)
  | n + 1, code, off, file =>
    match readU8 file with
    | none => .fail
    | some (byte, f1) =>
      if byte = 0 then
        match read_instr iinfo imported library code block_offsets codeBase
            off f1 with
        | .ok (code', off', f2) =>
          read_instrs iinfo imported library block_offsets codeBase n
            code' off' f2
        | .fail => .fail
        | .aborted => .aborted
      else
        match read_meta byte f1 with
        | .ok f2 =>
          read_instrs iinfo imported library block_offsets codeBase n
            code off f2
        | .fail => .fail
        | .aborted => .aborted

/-- The block loop of `read_proc` (`pz_read.cpp:696-727`).  In the first
pass the current `proc_offset` is recorded into `block_offsets` at each
block start; the accumulated (pass 1) or given (pass 2) offsets are
passed to the instruction reader. -/
def read_blocks (iinfo : Nat → InstrInfo) (imported : Imported)
    (library : RLibrary) (codeBase : Nat) (firstPass : Bool) :
    Nat → List Nat → Option (List WriteRec) → Nat → List Nat →
      RRes (List Nat × Option (List WriteRec) × Nat × List Nat)
  | 0, offs, code, off, file => .ok (offs, code, off, file)
  | n + 1, offs, code, off, file =>
    let offs' := if firstPass then offs ++ [off] else offs
    match readU32 file with
    | none => .fail
    | some (numInstrs, f1) =>
      match read_instrs iinfo imported library offs' codeBase numInstrs
          code off f1 with
      | .ok (code', off', f2) =>
        read_blocks iinfo imported library codeBase firstPass n offs'
          code' off' f2
      | .fail => .fail
      | .aborted => .aborted

/-- Modelled from the spec: `BinaryInput::read_len_string` (`pz_io.cpp`,
not among the provided sources): a 16-bit length then that many bytes;
only the byte consumption matters here (the name is used for
`proc->set_name` only, and `read_proc` does not check the result). -/
def read_len_string (file : List Nat) : Option Nat × List Nat :=
  match readU16 file with
  | none => (none, file)
  | some (len, rest) =>
    if len ≤ rest.length then (some len, rest.drop len)
    else (none, rest.drop len)

/-- `read_proc` (`pz_read.cpp:666-730`): read the name (result
unchecked), the block count, then the blocks.  The result carries the
block-offsets array (built in pass 1, passed through in pass 2), the code
writes (pass 2), the total `proc_offset` — the proc's code size — and the
remaining file.  The C function returns `unsigned`, with 0 doubling as
its failure sentinel (`return false` at `pz_read.cpp:709`); the model
keeps read failures (`fail`) apart from a computed size of 0 and the
caller treats both alike. -/
def read_proc (iinfo : Nat → InstrInfo) (imported : Imported)
    (library : RLibrary) (codeBase : Nat) (firstPass : Bool)
    (givenOffs : List Nat) (file : List Nat) :
    RRes (List Nat × Option (List WriteRec) × Nat × List Nat) :=
  match read_len_string file with
  | (_, f1) =>
    match readU32 f1 with
    | none => .fail
    | some (numBlocks, f2) =>
      read_blocks iinfo imported library codeBase firstPass numBlocks
        (if firstPass then [] else givenOffs)
        (if firstPass then none else some []) 0 f2

/-- Pass 1 of `read_code` (`pz_read.cpp:614-625`): for each proc, compute
its size and block offsets; a size of 0 — the error sentinel, which is
also the honestly computed size of a proc with no instructions — fails
the whole read.  On success returns the per-proc `(size, block_offsets)`
list and the remaining file. -/
def read_code_pass1 (iinfo : Nat → InstrInfo) (imported : Imported)
    (library : RLibrary) :
    Nat → List Nat → RRes (List (Nat × List Nat) × List Nat)
  | 0, file => .ok ([], file)
  | n + 1, file =>
    match read_proc iinfo imported library 0 true [] file with
    | .ok (offs, _, size, f') =>
      if size = 0 then .fail
      else
        match read_code_pass1 iinfo imported library n f' with
        | .ok (l, f'') => .ok ((size, offs) :: l, f'')
        | .fail => .fail
        | .aborted => .aborted
    | .fail => .fail
    | .aborted => .aborted

/-- Pass 2 of `read_code` (`pz_read.cpp:636-647`): re-read each proc,
writing into its allocated buffer (`library.proc(i)->code()`, modelled by
`library.procCodeAddr i`) and resolving references against the pass-1
block offsets; a 0 return fails. -/
def read_code_pass2 (iinfo : Nat → InstrInfo) (imported : Imported)
    (library : RLibrary) :
    Nat → List (Nat × List Nat) → List Nat →
      RRes (List (List WriteRec) × List Nat)
  | _, [], file => .ok ([], file)
  | i, (_, offs) :: rest, file =>
    match read_proc iinfo imported library (library.procCodeAddr i) false
        offs file with
    | .ok (_, some ws, size, f') =>
      if size = 0 then .fail
      else
        match read_code_pass2 iinfo imported library (i + 1) rest f' with
        | .ok (l, f'') => .ok (ws :: l, f'')
        | .fail => .fail
        | .aborted => .aborted
    | .ok (_, none, _, _) => .fail
    | .fail => .fail
    | .aborted => .aborted

/-- `read_code` (`pz_read.cpp:592-664`): run pass 1 from the saved file
position, then seek back and run pass 2 over the same bytes. -/
def read_code (iinfo : Nat → InstrInfo) (imported : Imported)
    (library : RLibrary) (num_procs : Nat) (file : List Nat) :
    RRes (List (List WriteRec) × List Nat) :=
  match read_code_pass1 iinfo imported library num_procs file with
  | .ok (l, _) => read_code_pass2 iinfo imported library 0 l file
  | .fail => .fail
  | .aborted => .aborted

/-- An `RLibrary` with no data entries defined yet and all-zero lookup
tables, used to evaluate the slot reader at concrete inputs. -/
def emptyRLibrary : RLibrary :=
  ⟨fun _ => none, fun _ => 0, fun _ => 0, fun _ => 0, fun _ _ => 0⟩

/-- An `Imported` aggregate with no imports. -/
def emptyImported : Imported := ⟨[], []⟩

end Plasma

namespace Plasma

open CapMode

/-! ## Claim C3: `can_gc` over capability chains -/

/-- Auxiliary: `wfChain` is the Boolean form of well-formedness: the
`Root` sentinel appears only as the last frame of the parent list. -/
def wfChain : List CapMode → Bool
  | [] => true
  | m :: rest => (rest.isEmpty || decide (m ≠ isRoot)) && wfChain rest

theorem canGCAux_iff (parents : List CapMode) (h : wfChain parents = true) :
    canGCAux parents = true ↔ cannotGC ∉ parents := by
  induction parents with
  | nil => simp [canGCAux]
  | cons m rest ih =>
    have hrest : wfChain rest = true := by
      have := h
      simp [wfChain, Bool.and_eq_true] at this
      exact this.2
    cases m with
    | isRoot =>
      have hr : rest = [] := by
        cases rest with
        | nil => rfl
        | cons a t => exfalso; simp [wfChain] at h
      subst hr
      simp [canGCAux]
    | cannotGC => simp [canGCAux]
    | canGC =>
      simp only [canGCAux, List.mem_cons]
      rw [ih hrest]
      constructor
      · rintro hm (h1 | h1)
        · exact CapMode.noConfusion h1
        · exact hm h1
      · intro hm h1
        exact hm (Or.inr h1)

/-- C3 (counterexample): the claim's "in particular" instance.  The chain
`CanGC (innermost) → CannotGC → Root` contains a `CanGC` frame above a
`CannotGC` frame and below the `Root` sentinel, yet `can_gc()` on the
innermost capability returns `false`, because the walk in
`GCCapability::can_gc` returns `false` at the first `CANNOT_GC` frame it
meets regardless of any `CanGC` frames above it. -/
theorem can_gc_above_cannotGC_false :
    wfChain [cannotGC, isRoot] = true ∧
      can_gc canGC [cannotGC, isRoot] = false := by
  constructor
  · decide
  · decide

/-- C3 (amended): for a well-formed chain, `can_gc()` is true iff the
capability itself is `CanGC` and no frame of its parent chain (up to and
including the `Root` sentinel) is `CannotGC`; a single `CannotGC` frame
anywhere below the `Root` sentinel forces `false`, and the `Root` sentinel
itself and `CannotGC` capabilities answer `false`. -/
theorem can_gc_iff (self : CapMode) (parents : List CapMode)
    (h : wfChain parents = true) :
    can_gc self parents = true ↔ self = canGC ∧ cannotGC ∉ parents := by
  cases self with
  | isRoot => simp [can_gc]
  | cannotGC => simp [can_gc]
  | canGC => simp [can_gc, canGCAux_iff parents h]

/-- C3 (witness): `can_gc_iff` applied to the chain
`CanGC → CanGC → Root`, where it answers `true`. -/
theorem can_gc_iff_witness :
    wfChain [canGC, isRoot] = true ∧
      (can_gc canGC [canGC, isRoot] = true ↔
        canGC = canGC ∧ cannotGC ∉ [canGC, isRoot]) :=
  ⟨by decide, can_gc_iff canGC [canGC, isRoot] (by decide)⟩

/-! ## Claim C2: the `wptr` data-slot encoding -/

/-- C2 (counterexample): a `wptr` slot whose 32-bit payload is
`0x80000000` (high bit set) is stored as `0xFFFFFFFF80000000`, the
sign-extension, not as the zero-extension `0x80000000`: `pz_read.cpp:533`
reads the value into an `int32_t` and line 539 casts it to `uintptr_t`. -/
theorem wptr_sign_extends :
    read_data_slot emptyRLibrary emptyImported [0x24, 0, 0, 0, 0x80] =
        .ok (.wptrV 0xFFFFFFFF80000000) [] ∧
      (0xFFFFFFFF80000000 : Nat) ≠ 0x80000000 := by
  constructor
  · rfl
  · decide

/-- C2 (amended): for every data slot with the `wptr` encoding, the loader
reads a 32-bit little-endian value from the file and writes it
**sign-extended** into the 64-bit pointer-sized slot: values below `2^31`
are stored unchanged (where sign- and zero-extension agree), while values
with the high bit set are stored as `v + (2^64 - 2^32)`. -/
theorem read_data_slot_wptr (lib : RLibrary) (imps : Imported)
    (e b0 b1 b2 b3 : Nat) (rest : List Nat)
    (he : dataEncType e = 0x20) :
    read_data_slot lib imps (e :: b0 :: b1 :: b2 :: b3 :: rest) =
      .ok (.wptrV (wptrStored (b0 + 256 * b1 + 65536 * b2 + 16777216 * b3)))
        rest ∧
    (b0 + 256 * b1 + 65536 * b2 + 16777216 * b3 < 2 ^ 31 →
      wptrStored (b0 + 256 * b1 + 65536 * b2 + 16777216 * b3) =
        b0 + 256 * b1 + 65536 * b2 + 16777216 * b3) ∧
    (2 ^ 31 ≤ b0 + 256 * b1 + 65536 * b2 + 16777216 * b3 →
      wptrStored (b0 + 256 * b1 + 65536 * b2 + 16777216 * b3) =
        b0 + 256 * b1 + 65536 * b2 + 16777216 * b3 + (2 ^ 64 - 2 ^ 32)) := by
  refine ⟨?_, ?_, ?_⟩
  · simp [read_data_slot, readU8, readU32, he]
  · intro hv
    simp only [wptrStored]
    split
    · rfl
    · omega
  · intro hv
    simp only [wptrStored]
    split
    · omega
    · rfl

/-- C2 (witness for the amended theorem): the slot `[0x20, 1, 0, 0, 0]`
decodes to value 1, stored unchanged. -/
theorem read_data_slot_wptr_witness :
    read_data_slot emptyRLibrary emptyImported [0x20, 1, 0, 0, 0] =
        .ok (.wptrV (wptrStored 1)) [] ∧ wptrStored 1 = 1 := by
  have h := read_data_slot_wptr emptyRLibrary emptyImported
    0x20 1 0 0 0 [] (by decide)
  exact ⟨by simpa using h.1, by simpa using h.2.1 (by decide)⟩

/-! ## Claim C7: forward data references -/

/-- C7 (counterexample): a `data`-encoded slot whose 32-bit id refers to a
data entry not yet present makes `read_data_slot` terminate the process
(`abort()` at `pz_read.cpp:556`); the outcome is not the error return the
claim describes.  This happens in every build: the `abort()` call is not
conditional on `PZ_DEV`. -/
theorem forward_data_ref_aborts :
    read_data_slot emptyRLibrary emptyImported [0x34, 0, 0, 0, 0] =
        .aborted ∧
      SlotOut.aborted ≠ SlotOut.err := by
  constructor
  · rfl
  · decide

/-- C7 (amended): for every input file containing a data slot with the
`data` encoding whose 32-bit data id refers to a data entry not yet
defined at the point the slot is read, the loader logs the error and
aborts the process, in release builds as well as development builds; it
does not return failure to the caller. -/
theorem read_data_slot_forward_ref (lib : RLibrary) (imps : Imported)
    (e b0 b1 b2 b3 : Nat) (rest : List Nat)
    (he : dataEncType e = 0x30)
    (hd : lib.data (b0 + 256 * b1 + 65536 * b2 + 16777216 * b3) = none) :
    read_data_slot lib imps (e :: b0 :: b1 :: b2 :: b3 :: rest) =
      .aborted := by
  simp [read_data_slot, readU8, readU32, he, hd]

/-- C7 (witness for the amended theorem). -/
theorem read_data_slot_forward_ref_witness :
    read_data_slot emptyRLibrary emptyImported [0x30, 2, 0, 0, 0] =
      .aborted :=
  read_data_slot_forward_ref emptyRLibrary emptyImported
    0x30 2 0 0 0 [] (by decide) rfl

/-! ## Claim C9: import resolution -/

theorem read_imports_parallel (reg : String → Option LinkedLibrary)
    (entries : List (String × String)) (acc : Imported)
    (h : acc.imports.length = acc.import_closures.length) :
    ∀ out, read_imports reg entries acc = .ok out →
      out.imports.length = out.import_closures.length := by
  induction entries generalizing acc with
  | nil =>
    intro out hout
    simp [read_imports] at hout
    subst hout
    exact h
  | cons p rest ih =>
    intro out hout
    obtain ⟨m, s⟩ := p
    simp only [read_imports] at hout
    cases hreg : reg m with
    | none => simp [hreg] at hout
    | some lib =>
      simp only [hreg] at hout
      cases hexp : lib.exports (m ++ "." ++ s) with
      | none => simp [hexp] at hout
      | some e =>
        simp only [hexp] at hout
        exact ih ⟨acc.imports ++ [e.id], acc.import_closures ++ [e.closure]⟩
          (by simp [h]) out hout

/-- C9: for every import entry `(module_name, symbol_name)`: a module
missing from the registry fails with "Module not found"; a module found
but whose exports lack the qualified name `module_name ++ "." ++
symbol_name` fails with "Procedure not found"; otherwise the export's id
is appended to `imports` and the export's closure to `import_closures` in
the same step, and any successful run keeps the two vectors the same
length. -/
theorem read_imports_spec (reg : String → Option LinkedLibrary)
    (m s : String) (rest : List (String × String)) (acc : Imported)
    (h : acc.imports.length = acc.import_closures.length) :
    (reg m = none →
      read_imports reg ((m, s) :: rest) acc =
        .error (.moduleNotFound m)) ∧
    (∀ lib, reg m = some lib → lib.exports (m ++ "." ++ s) = none →
      read_imports reg ((m, s) :: rest) acc =
        .error (.procedureNotFound m s)) ∧
    (∀ lib e, reg m = some lib → lib.exports (m ++ "." ++ s) = some e →
      read_imports reg ((m, s) :: rest) acc =
        read_imports reg rest
          ⟨acc.imports ++ [e.id], acc.import_closures ++ [e.closure]⟩) ∧
    (∀ out, read_imports reg ((m, s) :: rest) acc = .ok out →
      out.imports.length = out.import_closures.length) := by
  refine ⟨?_, ?_, ?_, ?_⟩
  · intro hreg
    simp [read_imports, hreg]
  · intro lib hreg hexp
    simp [read_imports, hreg, hexp]
  · intro lib e hreg hexp
    simp [read_imports, hreg, hexp]
  · exact read_imports_parallel reg ((m, s) :: rest) acc h

/-- C9 (witness): a one-entry registry where module `"A"` exports
`"A.f"` as export id 3 with closure address 7; resolving import
`("A", "f")` appends `3` and `7` to the parallel vectors, and an unknown
module `"B"` is a "Module not found" error. -/
theorem read_imports_spec_witness :
    read_imports
        (fun n => if n = "A" then
          some ⟨fun q => if q = "A.f" then some ⟨3, 7⟩ else none⟩
          else none)
        [("A", "f")] ⟨[], []⟩ =
      read_imports
        (fun n => if n = "A" then
          some ⟨fun q => if q = "A.f" then some ⟨3, 7⟩ else none⟩
          else none)
        [] ⟨[] ++ [3], [] ++ [7]⟩ :=
  (read_imports_spec
    (fun n => if n = "A" then
      some ⟨fun q => if q = "A.f" then some ⟨3, 7⟩ else none⟩
      else none)
    "A" "f" [] ⟨[], []⟩ rfl).2.2.1
    ⟨fun q => if q = "A.f" then some ⟨3, 7⟩ else none⟩ ⟨3, 7⟩
    (by simp) (by simp)

/-! ## Claim C4: one collection, one retry, then abort -/

/-- C4: when the first allocation attempt fails, `Heap::alloc` performs
exactly one collection and retries exactly once: a successful retry
returns its cell having collected once, and a failed retry aborts the
process reporting `size_in_words * MACHINE_WORD_SIZE` attempted bytes,
without attempting a second collection (the collection count of the
outcome is 1 in both cases). -/
theorem alloc_single_collect (h : Heap) (s : Nat) (roots : List Nat)
    (z : Bool) (hfail : try_allocate h s = none) :
    (∀ h₂ c, try_allocate (collect h roots) s = some (h₂, c) →
      alloc h s roots z = .success h₂ c 1) ∧
    (try_allocate (collect h roots) s = none →
      alloc h s roots z = .oomAbort (s * MACHINE_WORD_SIZE) 1) := by
  constructor
  · intro h₂ c hretry
    unfold alloc
    cases hz : z && decide (0 < h.wilderness) with
    | true => simp [hretry]
    | false => simp [hfail, hretry]
  · intro hretry
    unfold alloc
    cases hz : z && decide (0 < h.wilderness) with
    | true => simp [hretry]
    | false => simp [hfail, hretry]

/-- A two-word heap (16 bytes) holding one live-looking unmarked cell of
one word, used to exercise the out-of-memory path: a five-word request
cannot be satisfied even after the collection frees the cell. -/
def hOom : Heap :=
  ⟨16, 2, updFn (fun _ => 0) 1 5, updFn (fun _ => 0) 1 1, fun _ => 0, []⟩

/-- C4 (witness): on `hOom`, a five-word request fails, the single
collection frees the one-word cell, the retry still fails, and the call
aborts reporting 40 bytes after exactly one collection. -/
theorem alloc_single_collect_witness :
    alloc hOom 5 [] false = .oomAbort 40 1 :=
  (alloc_single_collect hOom 5 [] false rfl).2 rfl

/-! ## Claim C8: gc_zealous -/

/-- A freshly initialised heap (`Heap::Heap` + `Heap::init`,
`pz_gc.cpp:83-124`): `heap_size = PZ_GC_HEAP_SIZE = 4096`, zeroed bitmap,
`wilderness_ptr = base_address`, empty free list. -/
def freshHeap : Heap := ⟨4096, 0, fun _ => 0, fun _ => 0, fun _ => 0, []⟩

/-- C8 (counterexample): with `gc_zealous` on, the very first allocation
on a freshly initialised heap performs no collection: the forced-failure
branch of `Heap::alloc` (`pz_gc.cpp:151`) requires `wilderness_ptr >
base_address`, which fails on an empty heap, and the wilderness allocation
succeeds directly. -/
theorem zealous_fresh_heap_no_collect :
    collectsOf (alloc freshHeap 1 [] true) = 0 := rfl

/-- C8 (amended): with `gc_zealous` on, every allocation from a non-empty
heap (one where `wilderness_ptr > base_address`, i.e. at least one cell
ever allocated) performs a collection before the allocation is attempted
(the outcome's collection count is exactly 1); the very first allocation
on a freshly initialised heap is exempt and performs none. -/
theorem zealous_always_collects (h : Heap) (s : Nat) (roots : List Nat)
    (hw : 0 < h.wilderness) :
    collectsOf (alloc h s roots true) = 1 := by
  unfold alloc
  have hz : (true && decide (0 < h.wilderness)) = true := by simp [hw]
  rw [hz]
  cases hretry : try_allocate (collect h roots) s with
  | none => simp [hretry, collectsOf]
  | some pr => obtain ⟨h₂, c⟩ := pr; simp [hretry, collectsOf]

/-- C8 (witness): a heap with one allocated word has `wilderness > 0`, so
a zealous allocation on it collects exactly once. -/
theorem zealous_always_collects_witness :
    collectsOf (alloc hOom 1 [] true) = 1 :=
  zealous_always_collects hOom 1 [] (by decide)

/-! ## Sweep lemmas (for claims C5 and C6) -/

theorem sweepLoop_step_exit (fuel : Nat) (h : Heap) (p : Nat)
    (fir : Option Nat) (hp : ¬ p < h.wilderness) :
    sweepLoop (fuel + 1) h p fir = (h, fir) := by
  simp only [sweepLoop]
  rw [if_neg hp]

theorem sweepLoop_step_head (fuel : Nat) (h : Heap) (p : Nat)
    (hp : p < h.wilderness) (hm : h.bits p &&& GC_BITS_MARKED = 0) :
    sweepLoop (fuel + 1) h p none =
      sweepLoop fuel
        (setBits { h with freeList := p :: h.freeList } p
          (h.bits p &&& 0xFE))
        (p + h.sizes p + 1) (some p) := by
  simp only [sweepLoop]
  rw [if_pos hp, if_pos hm]

theorem sweepLoop_step_merge (fuel : Nat) (h : Heap) (p f : Nat)
    (hp : p < h.wilderness) (hm : h.bits p &&& GC_BITS_MARKED = 0) :
    sweepLoop (fuel + 1) h p (some f) =
      sweepLoop fuel (setBits h p 0) (p + h.sizes p + 1) (some f) := by
  simp only [sweepLoop]
  rw [if_pos hp, if_pos hm]

theorem sweepLoop_step_marked_none (fuel : Nat) (h : Heap) (p : Nat)
    (hp : p < h.wilderness) (hm : ¬ h.bits p &&& GC_BITS_MARKED = 0) :
    sweepLoop (fuel + 1) h p none =
      sweepLoop fuel (setBits h p (h.bits p &&& 0xFD))
        (p + h.sizes p + 1) none := by
  simp only [sweepLoop]
  rw [if_pos hp, if_neg hm]

theorem sweepLoop_step_marked_some (fuel : Nat) (h : Heap) (p f : Nat)
    (hp : p < h.wilderness) (hm : ¬ h.bits p &&& GC_BITS_MARKED = 0) :
    sweepLoop (fuel + 1) h p (some f) =
      sweepLoop fuel
        (setSize (setBits h p (h.bits p &&& 0xFD)) f (p - 1 - f))
        (p + h.sizes p + 1) none := by
  simp only [sweepLoop]
  rw [if_pos hp, if_neg hm]

/-- Bitmap entries strictly below the current walk position are never
touched by the rest of the sweep loop (the loop writes bits only at the
current cell, and size fixups touch the size map, not the bitmap). -/
theorem sweepLoop_bits_lt (fuel : Nat) (h : Heap) (p : Nat)
    (fir : Option Nat) (q : Nat) (hq : q < p) :
    (sweepLoop fuel h p fir).1.bits q = h.bits q := by
  induction fuel generalizing h p fir with
  | zero => rfl
  | succ fuel ih =>
    by_cases hp : p < h.wilderness
    · have hq' : q < p + h.sizes p + 1 := by omega
      have hqp : ¬ q = p := by omega
      by_cases hm : h.bits p &&& GC_BITS_MARKED = 0
      · cases fir with
        | none =>
          rw [sweepLoop_step_head fuel h p hp hm, ih _ _ _ hq']
          simp [setBits, updFn, hqp]
        | some f =>
          rw [sweepLoop_step_merge fuel h p f hp hm, ih _ _ _ hq']
          simp [setBits, updFn, hqp]
      · cases fir with
        | none =>
          rw [sweepLoop_step_marked_none fuel h p hp hm, ih _ _ _ hq']
          simp [setBits, updFn, hqp]
        | some f =>
          rw [sweepLoop_step_marked_some fuel h p f hp hm, ih _ _ _ hq']
          simp [setSize, setBits, updFn, hqp]
    · rw [sweepLoop_step_exit fuel h p fir hp]

/-- The free list only grows during the sweep loop. -/
theorem sweepLoop_freeList_mono (fuel : Nat) (h : Heap) (p : Nat)
    (fir : Option Nat) (x : Nat) (hx : x ∈ h.freeList) :
    x ∈ (sweepLoop fuel h p fir).1.freeList := by
  induction fuel generalizing h p fir with
  | zero => exact hx
  | succ fuel ih =>
    by_cases hp : p < h.wilderness
    · by_cases hm : h.bits p &&& GC_BITS_MARKED = 0
      · cases fir with
        | none =>
          rw [sweepLoop_step_head fuel h p hp hm]
          exact ih _ _ _ (by simp [setBits]; exact Or.inr hx)
        | some f =>
          rw [sweepLoop_step_merge fuel h p f hp hm]
          exact ih _ _ _ hx
      · cases fir with
        | none =>
          rw [sweepLoop_step_marked_none fuel h p hp hm]
          exact ih _ _ _ hx
        | some f =>
          rw [sweepLoop_step_marked_some fuel h p f hp hm]
          exact ih _ _ _ hx
    · rw [sweepLoop_step_exit fuel h p fir hp]
      exact hx

/-- Every member of a cell walk is at or beyond the start position. -/
theorem cellWalk_le (s : Nat → Nat) (w fuel : Nat) :
    ∀ p r, r ∈ cellWalk s w p fuel → p ≤ r := by
  induction fuel with
  | zero => intro p r hr; simp [cellWalk] at hr
  | succ fuel ih =>
    intro p r hr
    by_cases hp : p < w
    · simp only [cellWalk, if_pos hp, List.mem_cons] at hr
      rcases hr with rfl | hr
      · exact le_refl r
      · have := ih _ _ hr
        omega
    · simp [cellWalk, hp] at hr

/-- Cell walks depend only on the sizes at or beyond the start. -/
theorem cellWalk_congr (s s' : Nat → Nat) (w fuel : Nat) :
    ∀ p, (∀ q, p ≤ q → s q = s' q) →
      cellWalk s w p fuel = cellWalk s' w p fuel := by
  induction fuel with
  | zero => intro p _; rfl
  | succ fuel ih =>
    intro p hagree
    by_cases hp : p < w
    · simp only [cellWalk, if_pos hp]
      have hsp : s p = s' p := hagree p (le_refl p)
      rw [hsp, ih (p + s' p + 1) (fun q hq => hagree q (by omega))]
    · simp [cellWalk, hp]

/-- The outcome of the sweep loop for every cell it walks: a marked cell
keeps its bitmap byte except the mark bit (`& 0xFD`); an unmarked cell is
either linked into the free list with its allocated bit cleared
(`& 0xFE`) when it starts a free run, or merged into an earlier run
(bitmap byte zeroed) whose head — an earlier cell — is on the free
list. -/
theorem sweepLoop_spec (fuel : Nat) (h : Heap) (p : Nat) (fir : Option Nat)
    (hfir : ∀ f, fir = some f → f < p ∧ f ∈ h.freeList)
    (r : Nat) (hr : r ∈ cellWalk h.sizes h.wilderness p fuel) :
    (¬ h.bits r &&& GC_BITS_MARKED = 0 →
      (sweepLoop fuel h p fir).1.bits r = h.bits r &&& 0xFD) ∧
    (h.bits r &&& GC_BITS_MARKED = 0 →
      ((sweepLoop fuel h p fir).1.bits r = h.bits r &&& 0xFE ∧
        r ∈ (sweepLoop fuel h p fir).1.freeList) ∨
      ((sweepLoop fuel h p fir).1.bits r = 0 ∧
        ∃ f, f ∈ (sweepLoop fuel h p fir).1.freeList ∧ f < r)) := by
  induction fuel generalizing h p fir with
  | zero => simp [cellWalk] at hr
  | succ fuel ih =>
    by_cases hp : p < h.wilderness
    · have hr' : r = p ∨
          r ∈ cellWalk h.sizes h.wilderness (p + h.sizes p + 1) fuel := by
        simpa [cellWalk, hp] using hr
      by_cases hm : h.bits p &&& GC_BITS_MARKED = 0
      · cases fir with
        | none =>
          rw [sweepLoop_step_head fuel h p hp hm]
          rcases hr' with rfl | htail
          · refine ⟨fun hcon => absurd hm hcon, fun _ => Or.inl ⟨?_, ?_⟩⟩
            · rw [sweepLoop_bits_lt fuel _ _ _ r (by omega)]
              simp [setBits, updFn]
            · exact sweepLoop_freeList_mono fuel _ _ _ r
                (by simp [setBits])
          · have hrp : ¬ r = p := by
              have := cellWalk_le h.sizes h.wilderness fuel _ r htail
              omega
            have hcon := ih
              (setBits { h with freeList := p :: h.freeList } p
                (h.bits p &&& 0xFE))
              (p + h.sizes p + 1) (some p)
              (by
                intro f hf
                injection hf with hf
                subst hf
                exact ⟨by omega, by simp [setBits]⟩)
              (by exact htail)
            have hbits : (setBits { h with freeList := p :: h.freeList } p
                (h.bits p &&& 0xFE)).bits r = h.bits r := by
              simp [setBits, updFn, hrp]
            rw [hbits] at hcon
            exact hcon
        | some f =>
          rw [sweepLoop_step_merge fuel h p f hp hm]
          obtain ⟨hfp, hffl⟩ := hfir f rfl
          rcases hr' with rfl | htail
          · refine ⟨fun hcon => absurd hm hcon, fun _ => Or.inr ⟨?_, ?_⟩⟩
            · rw [sweepLoop_bits_lt fuel _ _ _ r (by omega)]
              simp [setBits, updFn]
            · exact ⟨f, sweepLoop_freeList_mono fuel _ _ _ f hffl, hfp⟩
          · have hrp : ¬ r = p := by
              have := cellWalk_le h.sizes h.wilderness fuel _ r htail
              omega
            have hcon := ih (setBits h p 0) (p + h.sizes p + 1) (some f)
              (by
                intro f' hf'
                injection hf' with hf'
                subst hf'
                exact ⟨by omega, hffl⟩)
              (by exact htail)
            have hbits : (setBits h p 0).bits r = h.bits r := by
              simp [setBits, updFn, hrp]
            rw [hbits] at hcon
            exact hcon
      · rcases hr' with rfl | htail
        · have hstab : ∀ (h₂ : Heap) (fir₂ : Option Nat),
              h₂.bits r = h.bits r &&& 0xFD →
              (sweepLoop fuel h₂ (r + h.sizes r + 1) fir₂).1.bits r =
                h.bits r &&& 0xFD := by
            intro h₂ fir₂ hb
            rw [sweepLoop_bits_lt fuel _ _ _ r (by omega), hb]
          cases fir with
          | none =>
            rw [sweepLoop_step_marked_none fuel h r hp hm]
            exact ⟨fun _ => hstab _ _ (by simp [setBits, updFn]),
              fun hcon => absurd hcon hm⟩
          | some f =>
            obtain ⟨hfp, _⟩ := hfir f rfl
            rw [sweepLoop_step_marked_some fuel h r f hp hm]
            refine ⟨fun _ => hstab _ _ ?_, fun hcon => absurd hcon hm⟩
            simp [setSize, setBits, updFn]
        · have hrp : ¬ r = p := by
            have := cellWalk_le h.sizes h.wilderness fuel _ r htail
            omega
          cases fir with
          | none =>
            rw [sweepLoop_step_marked_none fuel h p hp hm]
            have hcon := ih (setBits h p (h.bits p &&& 0xFD))
              (p + h.sizes p + 1) none (by intro f hf; exact absurd hf (by simp))
              (by exact htail)
            have hbits : (setBits h p (h.bits p &&& 0xFD)).bits r =
                h.bits r := by
              simp [setBits, updFn, hrp]
            rw [hbits] at hcon
            exact hcon
          | some f =>
            obtain ⟨hfp, _⟩ := hfir f rfl
            rw [sweepLoop_step_marked_some fuel h p f hp hm]
            have hwalk : r ∈ cellWalk
                (setSize (setBits h p (h.bits p &&& 0xFD)) f
                  (p - 1 - f)).sizes
                h.wilderness (p + h.sizes p + 1) fuel := by
              rw [← cellWalk_congr h.sizes _ h.wilderness fuel
                (p + h.sizes p + 1)
                (fun q hq => by
                  have hqf : ¬ q = f := by omega
                  simp [setSize, setBits, updFn, hqf])]
              exact htail
            have hcon := ih
              (setSize (setBits h p (h.bits p &&& 0xFD)) f (p - 1 - f))
              (p + h.sizes p + 1) none
              (by intro f' hf'; exact absurd hf' (by simp)) hwalk
            have hbits : (setSize (setBits h p (h.bits p &&& 0xFD)) f
                (p - 1 - f)).bits r = h.bits r := by
              simp [setSize, setBits, updFn, hrp]
            rw [hbits] at hcon
            exact hcon
    · simp [cellWalk, hp] at hr

theorem sweep_bits (h : Heap) :
    (sweep h).bits =
      (sweepLoop h.wilderness { h with freeList := [] } 1 none).1.bits := by
  unfold sweep
  rcases hres : sweepLoop h.wilderness { h with freeList := [] } 1 none
    with ⟨h₁, fir⟩
  cases fir <;> simp [hres, setSize]

theorem sweep_freeList (h : Heap) :
    (sweep h).freeList =
      (sweepLoop h.wilderness { h with freeList := [] } 1 none).1.freeList
    := by
  unfold sweep
  rcases hres : sweepLoop h.wilderness { h with freeList := [] } 1 none
    with ⟨h₁, fir⟩
  cases fir <;> simp [hres, setSize]

/-! ## Claim C5: the sweep phase -/

/-- A four-word heap holding two adjacent one-word cells, both allocated
and unmarked. -/
def hTwoFree : Heap :=
  ⟨4096, 4,
    fun q => if q = 1 then 5 else if q = 3 then 5 else 0,
    fun q => if q = 1 then 1 else if q = 3 then 1 else 0,
    fun _ => 0, []⟩

/-- C5 (counterexample): in `hTwoFree`, cell 3 is allocated and unmarked,
yet after the sweep the new free list is exactly `[1]` — cell 3 is not
linked into it — and cell 3's bitmap byte is zeroed (not the `free`
state): adjacent unmarked cells are merged into the run head
(`pz_gc.cpp:385-395`), not linked individually. -/
theorem sweep_merged_not_linked :
    hTwoFree.bits 3 &&& GC_BITS_ALLOCATED = 1 ∧
      hTwoFree.bits 3 &&& GC_BITS_MARKED = 0 ∧
      (sweep hTwoFree).freeList = [1] ∧
      (sweep hTwoFree).bits 3 = 0 := by
  refine ⟨by decide, by decide, by decide, by decide⟩

/-- C5 (amended): during every sweep, each walked cell that is marked
keeps its allocated bit and has its mark bit cleared (`& 0xFD`); each
walked cell that is unmarked is reclaimed in one of two ways: if it starts
a free run it is cleared to free (`& 0xFE`, allocated bit cleared) and
linked into the newly-built free list, and otherwise it is merged into the
run of an earlier unmarked cell — its bitmap byte is zeroed and an earlier
cell (the run head) is on the free list in its stead.  In particular an
unreachable previously-allocated cell's space always reaches the free
list, but only run heads appear on it as entries. -/
theorem sweep_spec (h : Heap) (r : Nat)
    (hr : r ∈ cellWalk h.sizes h.wilderness 1 h.wilderness) :
    (¬ h.bits r &&& GC_BITS_MARKED = 0 →
      (sweep h).bits r = h.bits r &&& 0xFD) ∧
    (h.bits r &&& GC_BITS_MARKED = 0 →
      ((sweep h).bits r = h.bits r &&& 0xFE ∧ r ∈ (sweep h).freeList) ∨
      ((sweep h).bits r = 0 ∧ ∃ f, f ∈ (sweep h).freeList ∧ f < r)) := by
  have hmain := sweepLoop_spec h.wilderness { h with freeList := [] } 1 none
    (by intro f hf; exact absurd hf (by simp)) r (by exact hr)
  rw [sweep_bits, sweep_freeList]
  exact hmain

/-- C5 (witness): in `hTwoFree`, cell 1 is unmarked and starts the run:
it is cleared to free and linked into the new free list. -/
theorem sweep_spec_witness :
    (sweep hTwoFree).bits 1 = hTwoFree.bits 1 &&& 0xFE ∧
      1 ∈ (sweep hTwoFree).freeList := by
  have h := (sweep_spec hTwoFree 1 (by decide)).2 (by decide)
  rcases h with h | ⟨-, f, hf, hlt⟩
  · exact h
  · exfalso
    rw [show (sweep hTwoFree).freeList = [1] from by decide] at hf
    simp at hf
    omega

/-! ## Claim C6: mark bits are clear after collection -/

theorem foldl_pres_heap {α : Type} (f : Heap → α → Heap)
    (hf : ∀ acc a, (f acc a).sizes = acc.sizes ∧
      (f acc a).wilderness = acc.wilderness) :
    ∀ (l : List α) (acc : Heap),
      (l.foldl f acc).sizes = acc.sizes ∧
        (l.foldl f acc).wilderness = acc.wilderness := by
  intro l
  induction l with
  | nil => intro acc; exact ⟨rfl, rfl⟩
  | cons a l ih =>
    intro acc
    have h1 := hf acc a
    have h2 := ih (f acc a)
    exact ⟨h2.1.trans h1.1, h2.2.trans h1.2⟩

/-- Marking changes only the bitmap: sizes and wilderness are
untouched. -/
theorem mark_skeleton (fuel : Nat) :
    ∀ (h : Heap) (w : Nat),
      (mark fuel h w).sizes = h.sizes ∧
        (mark fuel h w).wilderness = h.wilderness := by
  induction fuel with
  | zero => intro h w; exact ⟨rfl, rfl⟩
  | succ fuel ih =>
    intro h w
    simp only [mark]
    have hres := foldl_pres_heap
      (fun acc i =>
        if is_valid_object acc (REMOVE_TAG (acc.mem (w + i))) = true ∧
            acc.bits (cell_bits_index (REMOVE_TAG (acc.mem (w + i)))) &&&
              GC_BITS_MARKED = 0 then
          mark fuel acc (cell_bits_index (REMOVE_TAG (acc.mem (w + i))))
        else acc)
      (by
        intro acc a
        by_cases hcond :
            is_valid_object acc (REMOVE_TAG (acc.mem (w + a))) = true ∧
              acc.bits (cell_bits_index (REMOVE_TAG (acc.mem (w + a)))) &&&
                GC_BITS_MARKED = 0
        · simp only [if_pos hcond]
          exact ih _ _
        · simp only [if_neg hcond]
          exact ⟨trivial, trivial⟩)
      (List.range (h.sizes w))
      (setBits h w (h.bits w ||| GC_BITS_MARKED))
    exact hres

/-- The root-scanning loop changes only the bitmap. -/
theorem markRoots_skeleton (h : Heap) (roots : List Nat) :
    (markRoots h roots).sizes = h.sizes ∧
      (markRoots h roots).wilderness = h.wilderness := by
  unfold markRoots
  exact foldl_pres_heap _
    (by
      intro acc v
      by_cases hcond : is_valid_object acc (REMOVE_TAG v) = true ∧
          acc.bits (cell_bits_index (REMOVE_TAG v)) &&& GC_BITS_MARKED = 0
      · simp only [if_pos hcond]
        exact mark_skeleton _ _ _
      · simp only [if_neg hcond]
        exact ⟨trivial, trivial⟩)
    roots h

/-- C6: after every call to `Heap::collect` returns, every cell of the
heap's cell walk — in particular every allocated cell, whether it was
marked as reachable during this collection or not — has its mark bit
equal to 0: the sweep clears the mark bit of surviving cells and zeroes
or frees the rest. -/
theorem collect_clears_marks (h : Heap) (roots : List Nat) (r : Nat)
    (hr : r ∈ cellWalk h.sizes h.wilderness 1 h.wilderness) :
    (collect h roots).bits r &&& GC_BITS_MARKED = 0 := by
  obtain ⟨hs, hw⟩ := markRoots_skeleton h roots
  have hr' : r ∈ cellWalk (markRoots h roots).sizes
      (markRoots h roots).wilderness 1 (markRoots h roots).wilderness := by
    rw [hs, hw]; exact hr
  have hmain := sweepLoop_spec (markRoots h roots).wilderness
    { markRoots h roots with freeList := [] } 1 none
    (by intro f hf; exact absurd hf (by simp)) r (by exact hr')
  show (sweep (markRoots h roots)).bits r &&& GC_BITS_MARKED = 0
  rw [sweep_bits (markRoots h roots)]
  by_cases hmk : (markRoots h roots).bits r &&& GC_BITS_MARKED = 0
  · rcases hmain.2 hmk with ⟨hb, -⟩ | ⟨hb, -⟩
    · rw [hb, Nat.land_assoc,
        show (0xFE &&& GC_BITS_MARKED : Nat) = GC_BITS_MARKED from by decide]
      exact hmk
    · rw [hb]
      decide
  · rw [hmain.1 hmk, Nat.land_assoc,
      show (0xFD &&& GC_BITS_MARKED : Nat) = 0 from by decide]
    simp

/-- C6 (witness): collecting the one-cell heap `hOom` with no roots
leaves cell 1 with a clear mark bit. -/
theorem collect_clears_marks_witness :
    (collect hOom []).bits 1 &&& GC_BITS_MARKED = 0 :=
  collect_clears_marks hOom [] 1 (by decide)

/-! ## Encoder-layout lemmas (for claims C1 and C10)

`SeqFromEnd lo ws hi` says the writes `ws` occupy increasing,
non-overlapping byte ranges inside `[lo, hi)`; every `write_instr` call
appends such a run, so a proc's code writes never overwrite each
other. -/

def SeqFromEnd : Nat → List WriteRec → Nat → Prop
  | lo, [], hi => lo ≤ hi
  | lo, w :: ws, hi => lo ≤ recStart w ∧ SeqFromEnd (recStart w + recLen w) ws hi

theorem SeqFromEnd_mono_lo {lo' lo : Nat} {ws : List WriteRec} {hi : Nat}
    (hle : lo' ≤ lo) (h : SeqFromEnd lo ws hi) : SeqFromEnd lo' ws hi := by
  cases ws with
  | nil => exact le_trans hle h
  | cons w ws => exact ⟨le_trans hle h.1, h.2⟩

theorem SeqFromEnd_mono_hi {lo : Nat} {ws : List WriteRec} {hi hi' : Nat}
    (h : SeqFromEnd lo ws hi) (hle : hi ≤ hi') : SeqFromEnd lo ws hi' := by
  induction ws generalizing lo with
  | nil => exact le_trans h hle
  | cons w ws ih => exact ⟨h.1, ih h.2⟩

theorem SeqFromEnd_append {lo mid hi : Nat} {ws app : List WriteRec}
    (h1 : SeqFromEnd lo ws mid) (h2 : SeqFromEnd mid app hi) :
    SeqFromEnd lo (ws ++ app) hi := by
  induction ws generalizing lo with
  | nil => exact SeqFromEnd_mono_lo h1 h2
  | cons w ws ih => exact ⟨h1.1, ih h1.2⟩

theorem SeqFromEnd_start_le {lo : Nat} {ws : List WriteRec} {hi : Nat}
    (h : SeqFromEnd lo ws hi) : ∀ w ∈ ws, lo ≤ recStart w := by
  induction ws generalizing lo with
  | nil => intro w hw; simp at hw
  | cons w0 ws ih =>
    intro w hw
    rcases List.mem_cons.mp hw with rfl | hw'
    · exact h.1
    · have := ih h.2 w hw'
      have h1 := h.1
      omega

/-- In a sequential run, any write other than a given immediate write
occupies a byte range disjoint from the immediate's. -/
theorem SeqFromEnd_disjoint {lo hi : Nat} {ws : List WriteRec}
    (h : SeqFromEnd lo ws hi) (pos : Nat) (ity : ImmediateType)
    (rid val : Nat) (hmem : WriteRec.immWrite pos ity rid val ∈ ws) :
    ∀ w' ∈ ws, w' = WriteRec.immWrite pos ity rid val ∨
      recStart w' + recLen w' ≤ pos ∨ pos + immSize ity ≤ recStart w' := by
  induction ws generalizing lo with
  | nil => intro w' hw'; simp at hw'
  | cons w ws ih =>
    rcases List.mem_cons.mp hmem with heq | hmem'
    · intro w' hw'
      rcases List.mem_cons.mp hw' with rfl | hw''
      · left; exact heq.symm
      · right; right
        have := SeqFromEnd_start_le h.2 w' hw''
        rw [← heq] at this
        simpa [recStart, recLen] using this
    · intro w' hw'
      rcases List.mem_cons.mp hw' with rfl | hw''
      · right; left
        have hst := SeqFromEnd_start_le h.2 _ hmem'
        have hpos : recStart (WriteRec.immWrite pos ity rid val) = pos :=
          rfl
        omega
      · exact ih h.2 hmem' w' hw''

/-- All label-reference immediates among the writes `ws` carry the
resolved address `codeBase + block_offsets[b]`. -/
def LabelOk (codeBase : Nat) (offs : List Nat) (ws : List WriteRec) : Prop :=
  ∀ pos b val, WriteRec.immWrite pos .IMT_LABEL_REF b val ∈ ws →
    val = codeBase + offs.getD b 0

theorem LabelOk_nil (codeBase : Nat) (offs : List Nat) :
    LabelOk codeBase offs [] := by
  intro pos b val hmem
  simp at hmem

theorem LabelOk_append {codeBase : Nat} {offs : List Nat}
    {ws app : List WriteRec} (h1 : LabelOk codeBase offs ws)
    (h2 : LabelOk codeBase offs app) : LabelOk codeBase offs (ws ++ app) := by
  intro pos b val hmem
  rcases List.mem_append.mp hmem with hm | hm
  · exact h1 pos b val hm
  · exact h2 pos b val hm

theorem widthRecords_seq (widths : List Nat) :
    ∀ pos, SeqFromEnd pos (widthRecords pos widths) (pos + widths.length) := by
  induction widths with
  | nil => intro pos; simp [widthRecords, SeqFromEnd]
  | cons w ws ih =>
    intro pos
    refine ⟨le_refl _, ?_⟩
    have := ih (pos + 1)
    exact SeqFromEnd_mono_hi this (by simp; omega)

theorem widthRecords_shape (widths : List Nat) :
    ∀ pos w, w ∈ widthRecords pos widths → ∃ p v, w = .widthByte p v := by
  induction widths with
  | nil => intro pos w hw; simp [widthRecords] at hw
  | cons a ws ih =>
    intro pos w hw
    rcases List.mem_cons.mp hw with rfl | hw'
    · exact ⟨pos, a, rfl⟩
    · exact ih (pos + 1) w hw'

theorem writeRecords_seq (offset op : Nat) (widths : List Nat)
    (ity : ImmediateType) (rid val : Nat) :
    SeqFromEnd offset (writeRecords offset op widths ity rid val)
      (offset + 1 + widths.length + immSize ity) := by
  unfold writeRecords
  refine ⟨le_refl _, ?_⟩
  show SeqFromEnd (offset + 1) _ _
  refine SeqFromEnd_append (widthRecords_seq widths (offset + 1)) ?_
  · by_cases hity : ity = .IMT_NONE
    · subst hity
      simp [SeqFromEnd, immSize]
    · rw [if_neg hity]
      exact ⟨le_refl _, le_refl _⟩

theorem writeRecords_label (offset op : Nat) (widths : List Nat)
    (ity : ImmediateType) (rid val pos' b' val' : Nat)
    (hmem : WriteRec.immWrite pos' .IMT_LABEL_REF b' val' ∈
      writeRecords offset op widths ity rid val) :
    ity = .IMT_LABEL_REF ∧ pos' = offset + 1 + widths.length ∧
      b' = rid ∧ val' = val := by
  unfold writeRecords at hmem
  rcases List.mem_cons.mp hmem with heq | hmem2
  · exact absurd heq (by simp)
  rcases List.mem_append.mp hmem2 with hw | hi
  · obtain ⟨p, v, heq⟩ := widthRecords_shape widths _ _ hw
    exact absurd heq (by simp)
  · by_cases hity : ity = .IMT_NONE
    · rw [if_pos hity] at hi
      simp at hi
    · rw [if_neg hity] at hi
      simp only [List.mem_singleton, WriteRec.immWrite.injEq] at hi
      exact ⟨hi.2.1.symm, hi.1, hi.2.2⟩

theorem read_imm_label (imported : Imported) (library : RLibrary)
    (codeBase : Nat) (offs : List Nat) (f : List Nat) (rid val : Nat)
    (f' : List Nat)
    (h : read_imm imported library codeBase offs true .IMT_LABEL_REF f =
      .ok (rid, val, f')) :
    val = codeBase + offs.getD rid 0 := by
  simp only [read_imm] at h
  cases hr : readU32 f with
  | none => rw [hr] at h; exact absurd h (by simp)
  | some pr =>
    obtain ⟨b, r⟩ := pr
    rw [hr] at h
    simp only [if_true, RRes.ok.injEq, Prod.mk.injEq] at h
    obtain ⟨hb, hv, -⟩ := h
    rw [← hv, hb]

/-- One pass-2 `read_instr` appends a sequential run of writes whose
label immediates are resolved. -/
theorem read_instr_inv (iinfo : Nat → InstrInfo) (imported : Imported)
    (library : RLibrary) (offs : List Nat) (codeBase : Nat)
    (ws : List WriteRec) (off : Nat) (file : List Nat)
    (code' : Option (List WriteRec)) (off' : Nat) (file' : List Nat)
    (h : read_instr iinfo imported library (some ws) offs codeBase off
      file = .ok (code', off', file')) :
    ∃ app, code' = some (ws ++ app) ∧ off ≤ off' ∧
      SeqFromEnd off app off' ∧ LabelOk codeBase offs app := by
  unfold read_instr at h
  cases hop : readU8 file with
  | none => simp [hop] at h
  | some pr =>
    obtain ⟨op, f1⟩ := pr
    simp only [hop] at h
    rcases hw : read_widths (iinfo op).ii_num_width_bytes f1 with ⟨w1, w2, f2⟩
    simp only [hw, Option.isSome_some] at h
    cases him : read_imm imported library codeBase offs true
        (iinfo op).ii_immediate_type f2 with
    | fail => simp [him] at h
    | aborted => simp [him] at h
    | ok pr2 =>
      obtain ⟨rid, val, f3⟩ := pr2
      rw [him] at h
      cases w1 with
      | none =>
        simp only [write_instr, Option.map, writeRecords, RRes.ok.injEq,
          Prod.mk.injEq] at h
        obtain ⟨hcode, hoff, -⟩ := h
        refine ⟨writeRecords off op []
          (iinfo op).ii_immediate_type rid val, ?_, ?_, ?_, ?_⟩
        · rw [← hcode]; rfl
        · omega
        · rw [← hoff]
          have := writeRecords_seq off op []
            (iinfo op).ii_immediate_type rid val
          simpa using this
        · intro pos b v hmem
          obtain ⟨hity, -, hb, hv⟩ :=
            writeRecords_label off op [] _ rid val pos b v hmem
          subst hb hv
          rw [hity] at him
          exact read_imm_label imported library codeBase offs f2 b v
            f3 him
      | some a =>
        cases w2 with
        | none =>
          simp only [write_instr, Option.map, writeRecords, RRes.ok.injEq,
            Prod.mk.injEq] at h
          obtain ⟨hcode, hoff, -⟩ := h
          refine ⟨writeRecords off op [a]
            (iinfo op).ii_immediate_type rid val, ?_, ?_, ?_, ?_⟩
          · rw [← hcode]; rfl
          · omega
          · rw [← hoff]
            have := writeRecords_seq off op [a]
              (iinfo op).ii_immediate_type rid val
            simpa using this
          · intro pos b v hmem
            obtain ⟨hity, -, hb, hv⟩ :=
              writeRecords_label off op [a] _ rid val pos b v hmem
            subst hb hv
            rw [hity] at him
            exact read_imm_label imported library codeBase offs f2 b v
              f3 him
        | some b2 =>
          simp only [write_instr, Option.map, writeRecords, RRes.ok.injEq,
            Prod.mk.injEq] at h
          obtain ⟨hcode, hoff, -⟩ := h
          refine ⟨writeRecords off op [a, b2] .IMT_NONE rid val, ?_, ?_,
            ?_, ?_⟩
          · rw [← hcode]; rfl
          · omega
          · rw [← hoff]
            have := writeRecords_seq off op [a, b2] .IMT_NONE rid val
            simpa using this
          · intro pos b v hmem
            obtain ⟨hity, -, -, -⟩ :=
              writeRecords_label off op [a, b2] _ rid val pos b v hmem
            exact absurd hity (by simp)

/-- The instruction loop preserves the sequential-writes and
resolved-labels invariants. -/
theorem read_instrs_inv (iinfo : Nat → InstrInfo) (imported : Imported)
    (library : RLibrary) (offs : List Nat) (codeBase : Nat) (n : Nat) :
    ∀ (ws : List WriteRec) (off : Nat) (file : List Nat)
      (code' : Option (List WriteRec)) (off' : Nat) (file' : List Nat),
      read_instrs iinfo imported library offs codeBase n (some ws) off
        file = .ok (code', off', file') →
      ∃ app, code' = some (ws ++ app) ∧ off ≤ off' ∧
        SeqFromEnd off app off' ∧ LabelOk codeBase offs app := by
  induction n with
  | zero =>
    intro ws off file code' off' file' h
    simp only [read_instrs, RRes.ok.injEq, Prod.mk.injEq] at h
    obtain ⟨hcode, hoff, -⟩ := h
    exact ⟨[], by rw [← hcode]; simp, by omega,
      by rw [← hoff]; exact le_refl _, LabelOk_nil _ _⟩
  | succ n ih =>
    intro ws off file code' off' file' h
    simp only [read_instrs] at h
    cases hby : readU8 file with
    | none => simp [hby] at h
    | some pr =>
      obtain ⟨byte, f1⟩ := pr
      simp only [hby] at h
      by_cases hbz : byte = 0
      · rw [if_pos hbz] at h
        cases hri : read_instr iinfo imported library (some ws) offs
            codeBase off f1 with
        | fail => simp [hri] at h
        | aborted => simp [hri] at h
        | ok pr2 =>
          obtain ⟨c1, o1, f2⟩ := pr2
          simp only [hri] at h
          obtain ⟨app1, hc1, ho1, hseq1, hlab1⟩ :=
            read_instr_inv iinfo imported library offs codeBase ws off f1
              c1 o1 f2 hri
          subst hc1
          obtain ⟨app2, hc2, ho2, hseq2, hlab2⟩ :=
            ih (ws ++ app1) o1 f2 code' off' file' h
          refine ⟨app1 ++ app2, by rw [hc2, List.append_assoc], by omega,
            SeqFromEnd_append hseq1 hseq2, LabelOk_append hlab1 hlab2⟩
      · rw [if_neg hbz] at h
        cases hrm : read_meta byte f1 with
        | fail => simp [hrm] at h
        | aborted => simp [hrm] at h
        | ok f2 =>
          simp only [hrm] at h
          exact ih ws off f2 code' off' file' h

/-- Unfolding of one pass-2 block-loop step (`firstPass = false` leaves
the offsets untouched). -/
theorem read_blocks_false_succ (iinfo : Nat → InstrInfo)
    (imported : Imported) (library : RLibrary) (codeBase : Nat) (n : Nat)
    (offs : List Nat) (code : Option (List WriteRec)) (off : Nat)
    (file : List Nat) :
    read_blocks iinfo imported library codeBase false (n + 1) offs code
        off file =
      match readU32 file with
      | none => .fail
      | some (numInstrs, f1) =>
        match read_instrs iinfo imported library offs codeBase numInstrs
            code off f1 with
        | .ok (code', off', f2) =>
          read_blocks iinfo imported library codeBase false n offs code'
            off' f2
        | .fail => .fail
        | .aborted => .aborted := rfl

/-- The block loop of pass 2: offsets are passed through unchanged, and
the writes of all blocks form one sequential, label-resolved run. -/
theorem read_blocks_inv (iinfo : Nat → InstrInfo) (imported : Imported)
    (library : RLibrary) (codeBase : Nat) (n : Nat) :
    ∀ (offs : List Nat) (ws : List WriteRec) (off : Nat) (file : List Nat)
      (offsOut : List Nat) (code' : Option (List WriteRec)) (off' : Nat)
      (file' : List Nat),
      read_blocks iinfo imported library codeBase false n offs (some ws)
        off file = .ok (offsOut, code', off', file') →
      offsOut = offs ∧ ∃ app, code' = some (ws ++ app) ∧ off ≤ off' ∧
        SeqFromEnd off app off' ∧ LabelOk codeBase offs app := by
  induction n with
  | zero =>
    intro offs ws off file offsOut code' off' file' h
    simp only [read_blocks, RRes.ok.injEq, Prod.mk.injEq] at h
    obtain ⟨hoffs, hcode, hoff, -⟩ := h
    exact ⟨hoffs.symm, [], by rw [← hcode]; simp, by omega,
      by rw [← hoff]; exact le_refl _, LabelOk_nil _ _⟩
  | succ n ih =>
    intro offs ws off file offsOut code' off' file' h
    rw [read_blocks_false_succ] at h
    cases hni : readU32 file with
    | none => simp [hni] at h
    | some pr =>
      obtain ⟨numInstrs, f1⟩ := pr
      simp only [hni] at h
      cases hins : read_instrs iinfo imported library offs codeBase
          numInstrs (some ws) off f1 with
      | fail => simp [hins] at h
      | aborted => simp [hins] at h
      | ok pr2 =>
        obtain ⟨c1, o1, f2⟩ := pr2
        simp only [hins] at h
        obtain ⟨app1, hc1, ho1, hseq1, hlab1⟩ :=
          read_instrs_inv iinfo imported library offs codeBase numInstrs
            ws off f1 c1 o1 f2 hins
        subst hc1
        obtain ⟨hoffs, app2, hc2, ho2, hseq2, hlab2⟩ :=
          ih offs (ws ++ app1) o1 f2 offsOut code' off' file' h
        exact ⟨hoffs, app1 ++ app2, by rw [hc2, List.append_assoc],
          by omega, SeqFromEnd_append hseq1 hseq2,
          LabelOk_append hlab1 hlab2⟩

/-- Pass 2 of `read_proc`: the produced writes are sequential within
`[0, size)` and every label immediate is resolved against the given
block offsets. -/
theorem read_proc_pass2_inv (iinfo : Nat → InstrInfo) (imported : Imported)
    (library : RLibrary) (codeBase : Nat) (offs : List Nat)
    (file : List Nat) (offsOut : List Nat)
    (code' : Option (List WriteRec)) (size : Nat) (rest : List Nat)
    (h : read_proc iinfo imported library codeBase false offs file =
      .ok (offsOut, code', size, rest)) :
    offsOut = offs ∧ ∃ ws, code' = some ws ∧ SeqFromEnd 0 ws size ∧
      LabelOk codeBase offs ws := by
  unfold read_proc at h
  rcases hs : read_len_string file with ⟨nm, f1⟩
  simp only [hs] at h
  cases hb : readU32 f1 with
  | none => simp [hb] at h
  | some pr =>
    obtain ⟨numBlocks, f2⟩ := pr
    simp only [hb] at h
    obtain ⟨hoffs, app, hcode, -, hseq, hlab⟩ :=
      read_blocks_inv iinfo imported library codeBase numBlocks offs []
        0 f2 offsOut code' size rest h
    exact ⟨hoffs, app, by simpa using hcode, hseq, hlab⟩

/-! ## Claim C1: two-pass label resolution -/

/-- C1: run pass 1 of `read_proc` on a file to record the block offsets,
then pass 2 on the same bytes with those offsets.  Every `LabelRef`
immediate to a block `b` recorded in pass 1 holds, at its immediate
position in the proc's code buffer, exactly the address
`proc.code.base + block_offsets[b]` — the stored value equals
`codeBase + offs[b]`, and every other write of the proc occupies a byte
range disjoint from the immediate's 8 bytes, so the value persists after
pass 2 completes. -/
theorem label_refs_resolved (iinfo : Nat → InstrInfo) (imported : Imported)
    (library : RLibrary) (codeBase : Nat) (file : List Nat)
    (offs : List Nat) (c1 : Option (List WriteRec)) (size1 : Nat)
    (rest1 : List Nat)
    (_hpass1 : read_proc iinfo imported library 0 true [] file =
      .ok (offs, c1, size1, rest1))
    (offsOut : List Nat) (ws : List WriteRec) (size : Nat)
    (rest : List Nat)
    (hpass2 : read_proc iinfo imported library codeBase false offs file =
      .ok (offsOut, some ws, size, rest))
    (pos b val : Nat)
    (hmem : WriteRec.immWrite pos .IMT_LABEL_REF b val ∈ ws)
    (hb : b < offs.length) :
    val = codeBase + offs.get ⟨b, hb⟩ ∧
    ∀ w ∈ ws, w = WriteRec.immWrite pos .IMT_LABEL_REF b val ∨
      recStart w + recLen w ≤ pos ∨ pos + 8 ≤ recStart w := by
  obtain ⟨-, ws', hws', hseq, hlab⟩ :=
    read_proc_pass2_inv iinfo imported library codeBase offs file offsOut
      (some ws) size rest hpass2
  have hws : ws = ws' := by injection hws'
  subst hws
  constructor
  · have := hlab pos b val hmem
    rw [this]
    congr 1
    exact List.getD_eq_getElem offs 0 hb
  · have := SeqFromEnd_disjoint hseq pos .IMT_LABEL_REF b val hmem
    simpa [immSize] using this

/-- The one-opcode instruction table used by the concrete witnesses:
opcode 0 takes no widths and a `LabelRef` immediate; every other opcode
takes no widths and no immediate. -/
def iinfoW : Nat → InstrInfo := fun op =>
  if op = 0 then ⟨0, .IMT_LABEL_REF⟩ else ⟨0, .IMT_NONE⟩

/-- A one-proc file: empty name, two blocks; block 0 holds a `LabelRef`
instruction targeting block 1 followed by a plain instruction; block 1
holds one plain instruction. -/
def fileW : List Nat :=
  [0, 0, 2, 0, 0, 0,
   2, 0, 0, 0, 0, 0, 1, 0, 0, 0, 0, 1,
   1, 0, 0, 0, 0, 1]

/-- C1 (witness): on `fileW` pass 1 records `block_offsets = [0, 10]` and
size 11; pass 2 with code base 5000 stores the absolute address
`5000 + 10` at immediate position 1, and every other write is disjoint
from bytes 1..8. -/
theorem label_refs_resolved_witness :
    (5010 : Nat) = 5000 + [0, 10].get ⟨1, by decide⟩ ∧
    ∀ w ∈ ([.opByte 0 0, .immWrite 1 .IMT_LABEL_REF 1 5010, .opByte 9 1,
        .opByte 10 1] : List WriteRec),
      w = WriteRec.immWrite 1 .IMT_LABEL_REF 1 5010 ∨
        recStart w + recLen w ≤ 1 ∨ 1 + 8 ≤ recStart w :=
  label_refs_resolved iinfoW emptyImported emptyRLibrary 5000 fileW
    [0, 10] none 11 []
    (by decide)
    [0, 10]
    [.opByte 0 0, .immWrite 1 .IMT_LABEL_REF 1 5010, .opByte 9 1,
      .opByte 10 1]
    11 []
    (by decide)
    1 1 5010
    (by decide)
    (by decide)

/-! ## Claim C10: a zero pass-1 size fails the load -/

/-- If `k` procs parse with nonzero sizes and the next proc fails pass 1,
the whole pass-1 loop of `k + b` procs fails. -/
theorem read_code_pass1_fail_after (iinfo : Nat → InstrInfo)
    (imported : Imported) (library : RLibrary) (k b : Nat) :
    ∀ (file f' : List Nat) (l : List (Nat × List Nat)),
      read_code_pass1 iinfo imported library k file = .ok (l, f') →
      read_code_pass1 iinfo imported library b f' = .fail →
      read_code_pass1 iinfo imported library (k + b) file = .fail := by
  induction k with
  | zero =>
    intro file f' l h1 h2
    simp only [read_code_pass1, RRes.ok.injEq, Prod.mk.injEq] at h1
    rw [Nat.zero_add, h1.2]
    exact h2
  | succ k ih =>
    intro file f' l h1 h2
    rw [show k + 1 + b = (k + b) + 1 from by omega]
    simp only [read_code_pass1] at h1 ⊢
    cases hp : read_proc iinfo imported library 0 true [] file with
    | fail => simp [hp] at h1
    | aborted => simp [hp] at h1
    | ok pr =>
      obtain ⟨offs, c, size, f₀⟩ := pr
      simp only [hp] at h1 ⊢
      by_cases hz : size = 0
      · rw [if_pos hz] at h1; exact absurd h1 (by simp)
      · rw [if_neg hz] at h1 ⊢
        cases hq : read_code_pass1 iinfo imported library k f₀ with
        | fail => simp [hq] at h1
        | aborted => simp [hq] at h1
        | ok pr2 =>
          obtain ⟨l0, f''⟩ := pr2
          simp only [hq, RRes.ok.injEq, Prod.mk.injEq] at h1
          have hres := ih f₀ f' l0 (by rw [hq, h1.2]) h2
          simp only [hres]

/-- C10: when pass 1 computes a code size of 0 for some procedure — for
example one all of whose blocks are empty — `read_code` fails: 0 is also
the error sentinel of the procedure reader (`pz_read.cpp:623`,
`if (proc_size == 0) goto end`), so the zero size is treated as a read
failure and the whole load fails. -/
theorem read_code_zero_size_fails (iinfo : Nat → InstrInfo)
    (imported : Imported) (library : RLibrary) (n k : Nat)
    (file f' rest : List Nat) (l : List (Nat × List Nat))
    (offs : List Nat) (c : Option (List WriteRec))
    (hk : read_code_pass1 iinfo imported library k file = .ok (l, f'))
    (hproc : read_proc iinfo imported library 0 true [] f' =
      .ok (offs, c, 0, rest))
    (hkn : k < n) :
    read_code iinfo imported library n file = .fail := by
  have hb : read_code_pass1 iinfo imported library (n - k) f' = .fail := by
    rw [show n - k = (n - k - 1) + 1 from by omega]
    simp [read_code_pass1, hproc]
  have hall := read_code_pass1_fail_after iinfo imported library k (n - k)
    file f' l hk hb
  rw [show k + (n - k) = n from by omega] at hall
  unfold read_code
  simp only [hall]

/-- A one-proc file whose single block holds no instructions, so its
pass-1 size is 0. -/
def fileZeroProc : List Nat := [0, 0, 1, 0, 0, 0, 0, 0, 0, 0]

/-- C10 (witness): loading the one-proc file with an instruction-free
block fails. -/
theorem read_code_zero_size_fails_witness :
    read_code iinfoW emptyImported emptyRLibrary 1 fileZeroProc =
      .fail :=
  read_code_zero_size_fails iinfoW emptyImported emptyRLibrary 1 0
    fileZeroProc fileZeroProc [] [] [0] none rfl (by decide) (by omega)

end Plasma
